import Mathlib

/-!
# A shallow embedding of `meTal.py`

`meTal.py` replaces `builtins.__import__` with `_meTalizing_import`, a hook
that (1) once per module object, renames every attribute whose name differs
from its lowercased form to the lowercased name, recording those lowercased
names in the module attribute `__meTalized__`, and (2) whenever the
process-wide stack `_meTalizers` of pending `(decorator, args, kwargs)`
tuples is non-empty, returns a fresh copy of the module in which every
attribute named in `__meTalized__` has been wrapped by the pending
decorators.  The context manager `meTalmanager` pushes one tuple on entry
and pops it in a `finally` block on exit; `MeTal.__call__` packages
`(decorator, args, kwargs)` for it.

This file models Python values symbolically (`Val`), module namespaces as
insertion-ordered association lists (the observable behaviour of a `dict`),
and `str.lower` on the ASCII range via `Char.toLower` (which performs
exactly Python's ASCII case mapping).
-/

/-- A symbolic Python value: an opaque base object, a one-argument call
`f(x)` (how a pending decorator is applied to a definition), a call with
positional and keyword arguments `f(*args, **kwargs)` (how a decorator
factory is invoked), and spine encodings of argument tuples and keyword
dicts.  Calls are recorded symbolically; the hook never inspects the
result of a decorator. -/
inductive Val where
  | base : String → Val
  | app : Val → Val → Val
  | argsNil : Val
  | argsCons : Val → Val → Val
  | kwargsNil : Val
  | kwargsCons : String → Val → Val → Val
  | callStar : Val → Val → Val → Val
deriving DecidableEq, Repr

/-- A positional-argument tuple `*args`, as a `Val` spine. -/
def argsVal : List Val → Val
  | [] => Val.argsNil
  | v :: rest => Val.argsCons v (argsVal rest)

/-- A keyword-argument dict `**kwargs`, as a `Val` spine. -/
def kwargsVal : List (String × Val) → Val
  | [] => Val.kwargsNil
  | (k, v) :: rest => Val.kwargsCons k v (kwargsVal rest)

/-- A module namespace: the insertion-ordered key/value pairs of the
module's `__dict__`. -/
abbrev Dict := List (String × Val)

/-- `d[k]`, i.e. `getattr`: the value at the first matching key. -/
def dictLookup (d : Dict) (k : String) : Option Val :=
  match d with
  | [] => none
  | (k', v) :: rest => if k' = k then some v else dictLookup rest k

/-- `setattr`: replace the value at an existing key in place, otherwise
append the new binding at the end (Python dict insertion order). -/
def dictSet (d : Dict) (k : String) (v : Val) : Dict :=
  match d with
  | [] => [(k, v)]
  | (k', v') :: rest =>
      if k' = k then (k', v) :: rest else (k', v') :: dictSet rest k v

/-- `d.pop(k)`, the removal part: drop the first binding of `k`. -/
def dictRemove (d : Dict) (k : String) : Dict :=
  match d with
  | [] => []
  | (k', v') :: rest => if k' = k then rest else (k', v') :: dictRemove rest k

/-- The keys of a namespace, in insertion order. -/
def dictKeys (d : Dict) : List String := d.map Prod.fst

/-- `str.lower` on one character at a time: Python's ASCII case mapping,
which is exactly core's `Char.toLower` (`chr(ord(c)+32)` for `A`..`Z`). -/
def pyLower (s : String) : String := ⟨s.data.map Char.toLower⟩

/-- Code-point lexicographic comparison on character lists: the order
`sorted` and hence `dir()` use on identifier strings. -/
def charListLe : List Char → List Char → Bool
  | [], _ => true
  | _ :: _, [] => false
  | a :: as, b :: bs =>
      if a.toNat < b.toNat then true
      else if b.toNat < a.toNat then false
      else charListLe as bs

/-- The ordering `dir()` sorts attribute names by. -/
def pyStrLe (s t : String) : Bool := charListLe s.data t.data

/-- A Python module object: its `__name__`, its `__dict__` of ordinary
attributes, and the distinguished `__meTalized__` attribute (a list of
attribute names), `none` while `hasattr(module, '__meTalized__')` is
false. -/
structure PyModule where
  name : String
  attrs : Dict
  meTalized : Option (List String)
deriving DecidableEq, Repr

/-- `dir(module)`: the attribute names, sorted. -/
def dirNames (m : PyModule) : List String :=
  List.insertionSort (fun a b => pyStrLe a b = true) (dictKeys m.attrs)

/-- One entry of the `_meTalizers` stack: the `(decorate, dargs, dkwargs)`
tuple appended by `meTalmanager`.  No shape is imposed on `decorate`: any
value whatsoever is stored. -/
structure MeTalizer where
  decorate : Val
  dargs : List Val
  dkwargs : List (String × Val)
deriving DecidableEq, Repr

/-- `MeTal.__call__(self, decorator, *args, **kwargs)`: package the
decorator with its arguments for `meTalmanager`. -/
def MeTal_call (decorator : Val) (args : List Val) (kwargs : List (String × Val)) :
    MeTalizer :=
  { decorate := decorator, dargs := args, dkwargs := kwargs }

/-- One turn of the decoration loop body: `if dargs or dkwargs:
defn = decorate(*dargs, **dkwargs)(defn) else: defn = decorate(defn)`. -/
def applyOne (e : MeTalizer) (defn : Val) : Val :=
  if e.dargs ≠ [] ∨ e.dkwargs ≠ [] then
    Val.app (Val.callStar e.decorate (argsVal e.dargs) (kwargsVal e.dkwargs)) defn
  else
    Val.app e.decorate defn

/-- `for decorate, dargs, dkwargs in reversed(_meTalizers): ...`: fold the
loop body over the reversed stack. -/
def applyMeTalizers (stack : List MeTalizer) (defn : Val) : Val :=
  stack.reverse.foldl (fun d e => applyOne e d) defn

/-- One turn of the renaming loop: for the pair `(name, normed)`,
`if name != normed: setattr(module, normed, module.__dict__.pop(name))`.
(The `pop` cannot fail: the names come from `dir(module)`, i.e. from the
dict's own keys, and each is processed once.) -/
def renameStep (attrs : Dict) (p : String × String) : Dict :=
  if p.1 = p.2 then attrs
  else
    match dictLookup attrs p.1 with
    | some v => dictSet (dictRemove attrs p.1) p.2 v
    | none => attrs

/-- The `if not hasattr(module, '__meTalized__'):` block of
`_meTalizing_import`: compute `meTalized_names = [(name, name.lower()) for
name in dir(module)]`, store the normed names that differ from their
originals in `__meTalized__`, and rename each such attribute. -/
def renamePass (m : PyModule) : PyModule :=
  if m.meTalized.isSome then m
  else
    let pairs := (dirNames m).map fun n => (n, pyLower n)
    { name := m.name
      attrs := pairs.foldl renameStep m.attrs
      meTalized := some ((pairs.filter fun p => p.1 ≠ p.2).map Prod.snd) }

/-- The list `meTalized_names` of the source: each attribute name from
`dir(module)` paired with its lowercased form. -/
def renamePairs (m : PyModule) : List (String × String) :=
  (dirNames m).map fun n => (n, pyLower n)

/-- The decoration loop body for one name of `module.__meTalized__`:
read the definition off the copy, wrap it with every pending meTalizer,
and bind the result on the copy.  (`getattr` cannot fail here: the rename
pass bound every recorded name.) -/
def decorateStep (stack : List MeTalizer) (mz : PyModule) (n : String) : PyModule :=
  match dictLookup mz.attrs n with
  | some defn => { mz with attrs := dictSet mz.attrs n (applyMeTalizers stack defn) }
  | none => mz

/-- `_meTalizing_import`, acting on the module object the builtin import
returned (for a re-import, the cached `sys.modules` entry).  The result is
the pair (state of that cached module object after the call, module object
the hook returns).  With an empty stack the cached object itself is
returned; otherwise a fresh `types.ModuleType` copy of it is decorated and
returned, leaving the cached object untouched. -/
def meTalizing_import (stack : List MeTalizer) (module : PyModule) :
    PyModule × PyModule :=
  let module := renamePass module
  if stack = [] then (module, module)
  else
    let meTalized : PyModule :=
      { name := module.name, attrs := module.attrs, meTalized := module.meTalized }
    (module, (module.meTalized.getD []).foldl (decorateStep stack) meTalized)

/-- `_meTalizers.append((decorate, dargs, dkwargs))`: scope entry. -/
def meTalEnter (st : List MeTalizer) (e : MeTalizer) : List MeTalizer :=
  st ++ [e]

/-- `_meTalizers.pop()`: scope exit, in the `finally` block. -/
def meTalPop (st : List MeTalizer) : List MeTalizer :=
  st.dropLast

/-- What the body of a `with meTal(...)` block leaves behind: the stack it
produced, and whether it raised an exception. -/
structure BodyResult where
  stack : List MeTalizer
  raised : Bool
deriving DecidableEq, Repr

/-- `meTalmanager(decorate, dargs, dkwargs)` as a context manager: append
the tuple, run the body on the extended stack, and pop in a `finally`
block, so the pop happens whether or not the body raised. -/
def meTalmanager (e : MeTalizer) (body : List MeTalizer → BodyResult)
    (st : List MeTalizer) : BodyResult :=
  let r := body (meTalEnter st e)
  { stack := meTalPop r.stack, raised := r.raised }

/-- A Python exception, identified by its kind (for example
`"ImportError"` or `"TypeError"`). -/
structure PyErr where
  kind : String
deriving DecidableEq, Repr

/-- The decoration loop with explicit exception propagation: each
decorator application `call e d` may raise, and `foldlM` in `Except`
aborts at the first raised exception — the loop body wraps nothing in a
handler. -/
def decorateDefnE (call : MeTalizer → Val → Except PyErr Val)
    (stack : List MeTalizer) (defn : Val) : Except PyErr Val :=
  stack.reverse.foldlM (fun d e => call e d) defn

/-- One turn of the decoration loop, exception-aware: a failing `getattr`
raises `AttributeError`, and a raising decorator aborts the turn. -/
def decorateStepE (call : MeTalizer → Val → Except PyErr Val)
    (stack : List MeTalizer) (mz : PyModule) (n : String) :
    Except PyErr PyModule :=
  match dictLookup mz.attrs n with
  | none => Except.error ⟨"AttributeError"⟩
  | some defn => do
      let defn ← decorateDefnE call stack defn
      pure { mz with attrs := dictSet mz.attrs n defn }

/-- `_meTalizing_import` with explicit exception propagation.
`builtinResult` is the outcome of the unguarded call
`_builtin_import(*args, **kwargs)` and `call` says what applying one
pending meTalizer to a definition does (it may raise, for example
`TypeError` when a pushed non-callable is applied).  No statement of the
hook is wrapped in `try`/`except`, which the monadic binds make exact:
an exception anywhere aborts the hook with that same exception. -/
def meTalizing_importE (call : MeTalizer → Val → Except PyErr Val)
    (stack : List MeTalizer) (builtinResult : Except PyErr PyModule) :
    Except PyErr PyModule := do
  let module ← builtinResult
  let module := renamePass module
  if stack = [] then pure module
  else
    let meTalized : PyModule :=
      { name := module.name, attrs := module.attrs, meTalized := module.meTalized }
    (module.meTalized.getD []).foldlM (decorateStepE call stack) meTalized

/-- The interpretation of decorator application under which nothing
raises: exactly the symbolic `applyOne`. -/
def applyOneOk (e : MeTalizer) (defn : Val) : Except PyErr Val :=
  Except.ok (applyOne e defn)

/-- One top-level statement of `meTal.py`, at the granularity that decides
whether the module can load: a module import (`import sys`,
`import types`, `import __builtin__ as builtins`,
`from contextlib import contextmanager`), the assignment
`builtins.__import__ = _meTalizing_import` installing the hook, or any
other definition or assignment. -/
inductive TopStmt where
  | importModule : String → TopStmt
  | installHook : TopStmt
  | defOther : TopStmt
deriving DecidableEq, Repr

/-- The top-level statements of `meTal.py`, in source order (lines
222-272): the four imports, the `__meTalized__`/`_meTalizers`/
`_builtin_import`/`_meTalizing_import` definitions, the hook
installation, and the `meTalmanager`/`MeTal`/`sys.modules` tail. -/
def meTalTopLevel : List TopStmt :=
  [ TopStmt.importModule "sys",
    TopStmt.importModule "types",
    TopStmt.importModule "__builtin__",
    TopStmt.importModule "contextlib",
    TopStmt.defOther,
    TopStmt.installHook,
    TopStmt.defOther ]

/-- Run top-level statements in order: an import of a module missing from
the running interpreter raises `ImportError` and aborts execution there;
the result is whether `builtins.__import__` was replaced, and the raised
exception if any. -/
def runTopLevel (available : List String) :
    List TopStmt → Bool → Bool × Option PyErr
  | [], installed => (installed, none)
  | stmt :: rest, installed =>
      match stmt with
      | TopStmt.importModule n =>
          if n ∈ available then runTopLevel available rest installed
          else (installed, some ⟨"ImportError"⟩)
      | TopStmt.installHook => runTopLevel available rest true
      | TopStmt.defOther => runTopLevel available rest installed

/-- The standard-library module names relevant to `meTal.py` that a
Python 3 interpreter provides: `__builtin__` is absent (the Python 3 name
is `builtins`). -/
def py3Modules : List String := ["sys", "types", "builtins", "contextlib"]

/-- The same relevant module names under Python 2, where `__builtin__`
exists. -/
def py2Modules : List String := ["sys", "types", "__builtin__", "contextlib"]

/-- A concrete module in the state the first import leaves it: renamed,
with `__meTalized__ = ['hello']` recording the original name `HellO`. -/
def demoModule : PyModule :=
  { name := "simple"
    attrs := [("__name__", Val.base "simple"), ("hello", Val.base "hello_def")]
    meTalized := some ["hello"] }

/-- A concrete not-yet-imported module whose namespace binds both `HellO`
and `hello`: two distinct names with the same lowercased form. -/
def collisionModule : PyModule :=
  { name := "simple"
    attrs := [("HellO", Val.base "cased_def"), ("hello", Val.base "lower_def")]
    meTalized := none }

/-- A second case-fold collision module, binding `WorlD` and `world`. -/
def collisionModule2 : PyModule :=
  { name := "simple2"
    attrs := [("WorlD", Val.base "cased_def2"), ("world", Val.base "lower_def2")]
    meTalized := none }

/-- A concrete not-yet-imported module with one meTalized name. -/
def freshModule : PyModule :=
  { name := "fresh"
    attrs := [("__name__", Val.base "fresh"), ("GreeT", Val.base "greet_def")]
    meTalized := none }

/-- A concrete stack of two pending plain decorators, outermost first. -/
def demoStack : List MeTalizer :=
  [MeTal_call (Val.base "decorator1") [] [], MeTal_call (Val.base "decorator2") [] []]

/-! ## Dictionary lemmas -/

theorem dictLookup_set_self (d : Dict) (k : String) (v : Val) :
    dictLookup (dictSet d k v) k = some v := by
  induction d with
  | nil => simp [dictSet, dictLookup]
  | cons hd tl ih =>
      obtain ⟨k', v'⟩ := hd
      by_cases h : k' = k
      · simp [dictSet, h, dictLookup]
      · simp [dictSet, h, dictLookup, ih]

theorem dictLookup_set_ne (d : Dict) (k x : String) (v : Val) (h : x ≠ k) :
    dictLookup (dictSet d k v) x = dictLookup d x := by
  have hkx : ¬ k = x := fun hkk => h hkk.symm
  induction d with
  | nil => simp [dictSet, dictLookup, hkx]
  | cons hd tl ih =>
      obtain ⟨k', v'⟩ := hd
      by_cases hk : k' = k
      · subst hk
        simp [dictSet, dictLookup, hkx]
      · simp [dictSet, hk, dictLookup, ih]

theorem dictLookup_remove_ne (d : Dict) (k x : String) (h : x ≠ k) :
    dictLookup (dictRemove d k) x = dictLookup d x := by
  induction d with
  | nil => simp [dictRemove]
  | cons hd tl ih =>
      obtain ⟨k', v'⟩ := hd
      by_cases hk : k' = k
      · subst hk
        have hkx : ¬ k' = x := fun hkk => h hkk.symm
        simp [dictRemove, dictLookup, hkx]
      · simp [dictRemove, hk, dictLookup, ih]

theorem dictLookup_eq_none_of_not_mem (d : Dict) (k : String)
    (h : k ∉ dictKeys d) : dictLookup d k = none := by
  induction d with
  | nil => simp [dictLookup]
  | cons hd tl ih =>
      obtain ⟨k', v'⟩ := hd
      simp only [dictKeys, List.map_cons, List.mem_cons, not_or] at h
      have h1 : ¬ k' = k := fun hkk => h.1 hkk.symm
      have h2 : dictLookup tl k = none := ih h.2
      simp [dictLookup, h1, h2]

theorem dictLookup_remove_self (d : Dict) (k : String)
    (h : (dictKeys d).Nodup) : dictLookup (dictRemove d k) k = none := by
  induction d with
  | nil => simp [dictRemove, dictLookup]
  | cons hd tl ih =>
      obtain ⟨k', v'⟩ := hd
      simp only [dictKeys, List.map_cons, List.nodup_cons] at h
      by_cases hk : k' = k
      · subst hk
        have h1 : dictRemove ((k', v') :: tl) k' = tl := by simp [dictRemove]
        rw [h1]
        exact dictLookup_eq_none_of_not_mem tl k' h.1
      · simp [dictRemove, hk, dictLookup, ih h.2]

theorem dictKeys_set_eq (d : Dict) (k : String) (v : Val) :
    dictKeys (dictSet d k v)
      = if k ∈ dictKeys d then dictKeys d else dictKeys d ++ [k] := by
  induction d with
  | nil => simp [dictSet, dictKeys]
  | cons hd tl ih =>
      obtain ⟨k', v'⟩ := hd
      by_cases hk : k' = k
      · subst hk
        have h1 : dictSet ((k', v') :: tl) k' v = (k', v) :: tl := by simp [dictSet]
        rw [h1]
        simp [dictKeys]
      · have h1 : dictSet ((k', v') :: tl) k v = (k', v') :: dictSet tl k v := by
          simp [dictSet, hk]
        rw [h1]
        have hne : ¬ k = k' := fun hkk => hk hkk.symm
        simp only [dictKeys, List.map_cons] at ih ⊢
        rw [ih]
        by_cases hm : k ∈ List.map Prod.fst tl
        · simp [hm, hne]
        · simp [hm, hne]

theorem dictKeys_set_nodup (d : Dict) (k : String) (v : Val)
    (h : (dictKeys d).Nodup) : (dictKeys (dictSet d k v)).Nodup := by
  rw [dictKeys_set_eq]
  by_cases hm : k ∈ dictKeys d
  · simp [hm, h]
  · simp [hm, List.nodup_append, h]

theorem dictKeys_remove_sublist (d : Dict) (k : String) :
    (dictKeys (dictRemove d k)).Sublist (dictKeys d) := by
  induction d with
  | nil => simp [dictRemove]
  | cons hd tl ih =>
      obtain ⟨k', v'⟩ := hd
      by_cases hk : k' = k
      · simpa [dictRemove, hk, dictKeys] using List.sublist_cons_self k' (dictKeys tl)
      · simpa [dictRemove, hk, dictKeys] using List.Sublist.cons₂ k' ih

theorem dictKeys_remove_nodup (d : Dict) (k : String)
    (h : (dictKeys d).Nodup) : (dictKeys (dictRemove d k)).Nodup :=
  (dictKeys_remove_sublist d k).nodup h

theorem dictLookup_eq_some_of_mem (d : Dict) (k : String) (v : Val)
    (hnd : (dictKeys d).Nodup) (h : (k, v) ∈ d) : dictLookup d k = some v := by
  induction d with
  | nil => simp at h
  | cons hd tl ih =>
      obtain ⟨k', v'⟩ := hd
      simp only [dictKeys, List.map_cons, List.nodup_cons] at hnd
      rcases List.mem_cons.mp h with h | h
      · injection h with h1 h2
        subst h1
        subst h2
        simp [dictLookup]
      · have hk : ¬ k' = k := by
          rintro rfl
          exact hnd.1 (List.mem_map.mpr ⟨(k', v), h, rfl⟩)
        simp [dictLookup, hk, ih hnd.2 h]

theorem mem_of_dictLookup_eq_some (d : Dict) (k : String) (v : Val)
    (h : dictLookup d k = some v) : (k, v) ∈ d := by
  induction d with
  | nil => simp [dictLookup] at h
  | cons hd tl ih =>
      obtain ⟨k', v'⟩ := hd
      by_cases hk : k' = k
      · subst hk
        have h1 : dictLookup ((k', v') :: tl) k' = some v' := by simp [dictLookup]
        have h2 : v' = v := Option.some.inj (h1.symm.trans h)
        subst h2
        exact List.mem_cons_self _ _
      · simp only [dictLookup, if_neg hk] at h
        exact List.mem_cons_of_mem _ (ih h)

theorem dictVals_set_subset (d : Dict) (k : String) (v w : Val)
    (h : w ∈ (dictSet d k v).map Prod.snd) : w = v ∨ w ∈ d.map Prod.snd := by
  induction d with
  | nil => simpa [dictSet] using h
  | cons hd tl ih =>
      obtain ⟨k', v'⟩ := hd
      by_cases hk : k' = k
      · subst hk
        have h1 : dictSet ((k', v') :: tl) k' v = (k', v) :: tl := by simp [dictSet]
        rw [h1] at h
        simp only [List.map_cons, List.mem_cons] at h ⊢
        tauto
      · have h1 : dictSet ((k', v') :: tl) k v = (k', v') :: dictSet tl k v := by
          simp [dictSet, hk]
        rw [h1] at h
        simp only [List.map_cons, List.mem_cons] at h ⊢
        rcases h with h | h
        · exact Or.inr (Or.inl h)
        · rcases ih h with h | h
          · exact Or.inl h
          · exact Or.inr (Or.inr h)

theorem dictVals_remove_sublist (d : Dict) (k : String) :
    ((dictRemove d k).map Prod.snd).Sublist (d.map Prod.snd) := by
  induction d with
  | nil => simp [dictRemove]
  | cons hd tl ih =>
      obtain ⟨k', v'⟩ := hd
      by_cases hk : k' = k
      · simpa [dictRemove, hk] using List.sublist_cons_self v' (tl.map Prod.snd)
      · simpa [dictRemove, hk] using List.Sublist.cons₂ v' ih

/-! ## Case-mapping lemmas -/

theorem char_toNat_ofNat_valid (n : Nat) (h : n < 55296) :
    (Char.ofNat n).toNat = n := by
  have hv : n.isValidChar := Or.inl h
  simp [Char.ofNat, hv, Char.ofNatAux, Char.toNat, UInt32.toNat]

theorem charLower_eq_self (d : Char) (h : ¬(d.toNat ≥ 65 ∧ d.toNat ≤ 90)) :
    Char.toLower d = d := by
  show (if d.toNat ≥ 65 ∧ d.toNat ≤ 90 then Char.ofNat (d.toNat + 32) else d) = d
  rw [if_neg h]

theorem charLower_toNat (c : Char) (h : c.toNat ≥ 65 ∧ c.toNat ≤ 90) :
    (Char.toLower c).toNat = c.toNat + 32 := by
  show (if c.toNat ≥ 65 ∧ c.toNat ≤ 90 then Char.ofNat (c.toNat + 32) else c).toNat
      = c.toNat + 32
  rw [if_pos h]
  exact char_toNat_ofNat_valid _ (by omega)

theorem charLower_idem (c : Char) :
    (Char.toLower c).toLower = Char.toLower c := by
  by_cases h : c.toNat ≥ 65 ∧ c.toNat ≤ 90
  · apply charLower_eq_self
    rw [charLower_toNat c h]
    omega
  · rw [charLower_eq_self c h, charLower_eq_self c h]

theorem pyLower_idem (s : String) : pyLower (pyLower s) = pyLower s := by
  show (⟨(s.data.map Char.toLower).map Char.toLower⟩ : String)
      = ⟨s.data.map Char.toLower⟩
  rw [List.map_map]
  congr 1
  exact List.map_congr_left fun c _ => charLower_idem c

/-! ## Rename-pass lemmas -/

theorem renameStep_lookup_skip (attrs : Dict) (p : String × String) (x : String)
    (h : p.1 = p.2 ∨ (p.1 ≠ x ∧ p.2 ≠ x)) :
    dictLookup (renameStep attrs p) x = dictLookup attrs x := by
  by_cases he : p.1 = p.2
  · simp [renameStep, he]
  · rcases h with h | ⟨h1, h2⟩
    · exact absurd h he
    · simp only [renameStep, if_neg he]
      cases hv : dictLookup attrs p.1 with
      | none => rfl
      | some v =>
          rw [dictLookup_set_ne _ _ _ _ (Ne.symm h2),
            dictLookup_remove_ne _ _ _ (Ne.symm h1)]

theorem renameFold_lookup_skip (P : List (String × String)) (attrs : Dict)
    (x : String)
    (h : ∀ p ∈ P, p.1 = p.2 ∨ (p.1 ≠ x ∧ p.2 ≠ x)) :
    dictLookup (P.foldl renameStep attrs) x = dictLookup attrs x := by
  induction P generalizing attrs with
  | nil => rfl
  | cons p P ih =>
      rw [List.foldl_cons, ih _ fun q hq => h q (List.mem_cons_of_mem _ hq),
        renameStep_lookup_skip _ _ _ (h p (List.mem_cons_self _ _))]

theorem renameStep_keys_nodup (attrs : Dict) (p : String × String)
    (h : (dictKeys attrs).Nodup) : (dictKeys (renameStep attrs p)).Nodup := by
  by_cases he : p.1 = p.2
  · simpa [renameStep, he] using h
  · simp only [renameStep, if_neg he]
    cases hv : dictLookup attrs p.1 with
    | none => exact h
    | some v => exact dictKeys_set_nodup _ _ _ (dictKeys_remove_nodup _ _ h)

theorem renameFold_keys_nodup (P : List (String × String)) (attrs : Dict)
    (h : (dictKeys attrs).Nodup) :
    (dictKeys (P.foldl renameStep attrs)).Nodup := by
  induction P generalizing attrs with
  | nil => exact h
  | cons p P ih => exact List.foldl_cons .. ▸ ih _ (renameStep_keys_nodup _ _ h)

theorem renameStep_vals_subset (attrs : Dict) (p : String × String) (w : Val)
    (h : w ∈ (renameStep attrs p).map Prod.snd) : w ∈ attrs.map Prod.snd := by
  by_cases he : p.1 = p.2
  · simpa [renameStep, he] using h
  · simp only [renameStep, if_neg he] at h
    cases hv : dictLookup attrs p.1 with
    | none => rw [hv] at h; exact h
    | some v =>
        rw [hv] at h
        rcases dictVals_set_subset _ _ _ _ h with h | h
        · subst h
          exact List.mem_map.mpr ⟨(p.1, w), mem_of_dictLookup_eq_some _ _ _ hv, rfl⟩
        · exact (dictVals_remove_sublist attrs p.1).subset h

theorem renameFold_vals_subset (P : List (String × String)) (attrs : Dict)
    (w : Val) (h : w ∈ (P.foldl renameStep attrs).map Prod.snd) :
    w ∈ attrs.map Prod.snd := by
  induction P generalizing attrs with
  | nil => exact h
  | cons p P ih =>
      exact renameStep_vals_subset _ _ _ (ih _ (List.foldl_cons .. ▸ h))

theorem renameFold_lookup_hit (P : List (String × String)) (attrs : Dict)
    (n : String) (v : Val)
    (hP : ∀ p ∈ P, p.2 = pyLower p.1)
    (hnd : (P.map Prod.fst).Nodup)
    (hcol : ∀ p ∈ P, ∀ q ∈ P, p.1 ≠ q.1 → pyLower p.1 ≠ pyLower q.1)
    (hKnd : (dictKeys attrs).Nodup)
    (hmem : (n, pyLower n) ∈ P)
    (hne : n ≠ pyLower n)
    (hv : dictLookup attrs n = some v) :
    dictLookup (P.foldl renameStep attrs) (pyLower n) = some v
      ∧ dictLookup (P.foldl renameStep attrs) n = none := by
  induction P generalizing attrs with
  | nil => simp at hmem
  | cons p P ih =>
      rw [List.foldl_cons]
      have hpm : p ∈ p :: P := List.mem_cons_self _ _
      by_cases hp : p.1 = n
      · have hp2 : p.2 = pyLower n := by rw [hP p hpm, hp]
        have h12 : ¬ p.1 = p.2 := by rw [hp, hp2]; exact hne
        have hstep : renameStep attrs p = dictSet (dictRemove attrs n) (pyLower n) v := by
          unfold renameStep
          rw [if_neg h12, hp, hv, hp2]
        have hnin : n ∉ P.map Prod.fst := by
          have := List.nodup_cons.mp hnd
          exact hp ▸ this.1
        constructor
        · rw [renameFold_lookup_skip, hstep, dictLookup_set_self]
          intro q hq
          by_cases hq12 : q.1 = q.2
          · exact Or.inl hq12
          · refine Or.inr ⟨fun hq1 => ?_, fun hq2 => ?_⟩
            · exact hq12 (by rw [hP q (List.mem_cons_of_mem _ hq), hq1, pyLower_idem])
            · have hq1n : q.1 ≠ n := fun hqe =>
                hnin (hqe ▸ List.mem_map.mpr ⟨q, hq, rfl⟩)
              have := hcol q (List.mem_cons_of_mem _ hq) p hpm (hp ▸ hq1n)
              rw [hp] at this
              exact this (by rw [← hP q (List.mem_cons_of_mem _ hq), hq2])
        · rw [renameFold_lookup_skip, hstep,
            dictLookup_set_ne _ _ _ _ hne, dictLookup_remove_self _ _ hKnd]
          intro q hq
          by_cases hq12 : q.1 = q.2
          · exact Or.inl hq12
          · refine Or.inr ⟨fun hq1 => hnin (hq1 ▸ List.mem_map.mpr ⟨q, hq, rfl⟩),
              fun hq2 => ?_⟩
            have hq2' : pyLower q.1 = n := by rw [← hP q (List.mem_cons_of_mem _ hq), hq2]
            exact hne (by rw [← hq2', pyLower_idem])
      · have hmem' : (n, pyLower n) ∈ P := by
          rcases List.mem_cons.mp hmem with h | h
          · exact absurd (congrArg Prod.fst h).symm hp
          · exact h
        have hstep_lookup : dictLookup (renameStep attrs p) n = some v := by
          rw [renameStep_lookup_skip, hv]
          by_cases hq12 : p.1 = p.2
          · exact Or.inl hq12
          · refine Or.inr ⟨fun h => hp h, fun h2 => ?_⟩
            have hp2' : pyLower p.1 = n := by rw [← hP p hpm, h2]
            exact hne (by rw [← hp2', pyLower_idem])
        exact ih _ (fun q hq => hP q (List.mem_cons_of_mem _ hq))
          (List.nodup_cons.mp hnd).2
          (fun q hq r hr => hcol q (List.mem_cons_of_mem _ hq) r (List.mem_cons_of_mem _ hr))
          (renameStep_keys_nodup _ _ hKnd) hmem' hstep_lookup

theorem renameFold_lookup_keep (P : List (String × String)) (attrs : Dict)
    (x : String)
    (hP : ∀ p ∈ P, p.2 = pyLower p.1)
    (hx : pyLower x = x)
    (hcolx : ∀ p ∈ P, p.1 ≠ x → pyLower p.1 ≠ x) :
    dictLookup (P.foldl renameStep attrs) x = dictLookup attrs x := by
  apply renameFold_lookup_skip
  intro p hp
  by_cases h1 : p.1 = x
  · left
    rw [hP p hp, h1, hx]
  · right
    refine ⟨h1, ?_⟩
    rw [hP p hp]
    exact hcolx p hp h1

/-! ## Decoration-loop lemmas -/

theorem decorateStep_lookup_ne (stack : List MeTalizer) (mz : PyModule)
    (n x : String) (h : x ≠ n) :
    dictLookup (decorateStep stack mz n).attrs x = dictLookup mz.attrs x := by
  cases hv : dictLookup mz.attrs n with
  | none => simp [decorateStep, hv]
  | some v => simp [decorateStep, hv, dictLookup_set_ne _ _ _ _ h]

theorem decorateFold_lookup_not_mem (stack : List MeTalizer) (ns : List String)
    (mz : PyModule) (x : String) (h : x ∉ ns) :
    dictLookup ((ns.foldl (decorateStep stack) mz).attrs) x
      = dictLookup mz.attrs x := by
  induction ns generalizing mz with
  | nil => rfl
  | cons m ns ih =>
      rw [List.foldl_cons,
        ih _ fun hm => h (List.mem_cons_of_mem _ hm),
        decorateStep_lookup_ne _ _ _ _ fun he : x = m => h (by rw [he]; exact List.mem_cons_self _ _)]

theorem decorateFold_lookup (stack : List MeTalizer) (ns : List String)
    (mz : PyModule) (n : String) (v : Val)
    (hnd : ns.Nodup) (hmem : n ∈ ns) (hv : dictLookup mz.attrs n = some v) :
    dictLookup ((ns.foldl (decorateStep stack) mz).attrs) n
      = some (applyMeTalizers stack v) := by
  induction ns generalizing mz with
  | nil => simp at hmem
  | cons m ns ih =>
      rw [List.foldl_cons]
      rcases List.mem_cons.mp hmem with rfl | hmem'
      · have hnotin : n ∉ ns := (List.nodup_cons.mp hnd).1
        have hstep : dictLookup (decorateStep stack mz n).attrs n
            = some (applyMeTalizers stack v) := by
          simp [decorateStep, hv, dictLookup_set_self]
        rw [decorateFold_lookup_not_mem _ _ _ _ hnotin, hstep]
      · have hmn : ¬ n = m := fun h => (List.nodup_cons.mp hnd).1 (h ▸ hmem')
        have hv' : dictLookup (decorateStep stack mz m).attrs n = some v := by
          rw [decorateStep_lookup_ne _ _ _ _ hmn]
          exact hv
        exact ih (decorateStep stack mz m) (List.nodup_cons.mp hnd).2 hmem' hv'

/-! ## Rename-pass structure lemmas -/

theorem renamePass_of_isSome (m : PyModule) (h : m.meTalized.isSome) :
    renamePass m = m := by
  simp [renamePass, h]

theorem renamePass_meTalized_isSome (m : PyModule) :
    (renamePass m).meTalized.isSome := by
  by_cases h : m.meTalized.isSome
  · rw [renamePass_of_isSome m h]
    exact h
  · simp [renamePass, h]

theorem renamePass_idem (m : PyModule) :
    renamePass (renamePass m) = renamePass m :=
  renamePass_of_isSome _ (renamePass_meTalized_isSome m)

/-! ## Hook-level lemmas -/

theorem meTalizing_import_fst (stack : List MeTalizer) (m : PyModule) :
    (meTalizing_import stack m).1 = renamePass m := by
  by_cases h : stack = [] <;> simp [meTalizing_import, h]

theorem meTalizing_import_empty_snd (m : PyModule) :
    (meTalizing_import [] m).2 = renamePass m := by
  simp [meTalizing_import]

theorem meTalizing_import_lookup (stack : List MeTalizer) (m : PyModule)
    (ms : List String) (n : String) (v : Val)
    (hstack : stack ≠ [])
    (hms : m.meTalized = some ms)
    (hnd : ms.Nodup)
    (hmem : n ∈ ms)
    (hv : dictLookup m.attrs n = some v) :
    dictLookup (meTalizing_import stack m).2.attrs n
      = some (applyMeTalizers stack v) := by
  have hsome : m.meTalized.isSome := by rw [hms]; rfl
  unfold meTalizing_import
  rw [renamePass_of_isSome m hsome]
  simp only [if_neg hstack, hms, Option.getD_some]
  exact decorateFold_lookup stack ms ⟨m.name, m.attrs, some ms⟩ n v hnd hmem hv

theorem applyMeTalizers_eq_foldr (stack : List MeTalizer) (v : Val) :
    applyMeTalizers stack v = stack.foldr applyOne v := by
  unfold applyMeTalizers
  rw [List.foldl_reverse]

theorem dirNames_perm (m : PyModule) : (dirNames m).Perm (dictKeys m.attrs) :=
  List.perm_insertionSort _ _

theorem mem_dictKeys_of_lookup (d : Dict) (k : String) (v : Val)
    (h : dictLookup d k = some v) : k ∈ dictKeys d :=
  List.mem_map.mpr ⟨(k, v), mem_of_dictLookup_eq_some d k v h, rfl⟩

/-! ## Claim theorems -/

/-- C1: for every module imported while the pending-decorator stack is
non-empty — in particular on re-import of an already-loaded (already
renamed) module — the hook returns a module in which each attribute listed
in the module's `__meTalized__` list is wrapped by the pending
decorators. -/
theorem wrapping_occurs_on_reimport (stack : List MeTalizer) (m : PyModule)
    (ms : List String) (n : String) (v : Val)
    (hstack : stack ≠ []) (hms : m.meTalized = some ms) (hnd : ms.Nodup)
    (hmem : n ∈ ms) (hv : dictLookup m.attrs n = some v) :
    dictLookup (meTalizing_import stack m).2.attrs n
      = some (applyMeTalizers stack v) :=
  meTalizing_import_lookup stack m ms n v hstack hms hnd hmem hv

theorem wrapping_occurs_on_reimport_witness :
    dictLookup (meTalizing_import demoStack demoModule).2.attrs "hello"
      = some (Val.app (Val.base "decorator1")
          (Val.app (Val.base "decorator2") (Val.base "hello_def"))) := by
  rw [wrapping_occurs_on_reimport demoStack demoModule ["hello"] "hello"
    (Val.base "hello_def") (by decide) (by decide) (by decide) (by decide) (by decide)]
  rfl

/-- C2: with the stack holding `(d1, ..., dn)` from outermost to innermost
scope (scope entry appends at the right end), each meTalized attribute `f`
is replaced by `d1(d2(...dn(f)...))` — the fold of `applyOne` from the
right, the outermost scope's decorator outermost, as in stacked `@d1 @d2`
syntax. -/
theorem nested_scopes_apply_outermost_first (stack : List MeTalizer)
    (m : PyModule) (ms : List String) (n : String) (v : Val) (d1 d2 : Val)
    (hstack : stack ≠ []) (hms : m.meTalized = some ms) (hnd : ms.Nodup)
    (hmem : n ∈ ms) (hv : dictLookup m.attrs n = some v) :
    dictLookup (meTalizing_import stack m).2.attrs n
        = some (stack.foldr applyOne v)
      ∧ meTalEnter (meTalEnter [] (MeTal_call d1 [] [])) (MeTal_call d2 [] [])
          = [MeTal_call d1 [] [], MeTal_call d2 [] []]
      ∧ applyMeTalizers [MeTal_call d1 [] [], MeTal_call d2 [] []] v
          = Val.app d1 (Val.app d2 v) := by
  refine ⟨?_, rfl, rfl⟩
  rw [meTalizing_import_lookup stack m ms n v hstack hms hnd hmem hv,
    applyMeTalizers_eq_foldr]

theorem nested_scopes_apply_outermost_first_witness :
    dictLookup (meTalizing_import demoStack demoModule).2.attrs "hello"
      = some (demoStack.foldr applyOne (Val.base "hello_def")) :=
  (nested_scopes_apply_outermost_first demoStack demoModule ["hello"] "hello"
    (Val.base "hello_def") (Val.base "decorator1") (Val.base "decorator2")
    (by decide) (by decide) (by decide) (by decide) (by decide)).1

/-- C3: entering a meTal scope appends exactly the one
`(decorator, args, kwargs)` tuple to the process-wide stack, exiting pops
the last element in a `finally` block — also when the body raised — so
after any balanced use of scopes the stack equals its value before entry,
and the body's exception status passes through unchanged. -/
theorem meTal_scope_stack_discipline (d : Val) (args : List Val)
    (kwargs : List (String × Val)) (st : List MeTalizer)
    (body : List MeTalizer → BodyResult)
    (hbal : ∀ s, (body s).stack = s) :
    meTalEnter st (MeTal_call d args kwargs)
        = st ++ [{ decorate := d, dargs := args, dkwargs := kwargs }]
      ∧ (meTalmanager (MeTal_call d args kwargs) body st).stack = st
      ∧ (meTalmanager (MeTal_call d args kwargs) body st).raised
          = (body (st ++ [MeTal_call d args kwargs])).raised := by
  refine ⟨rfl, ?_, rfl⟩
  show meTalPop (body (meTalEnter st (MeTal_call d args kwargs))).stack = st
  rw [hbal]
  show (st ++ [MeTal_call d args kwargs]).dropLast = st
  exact List.dropLast_concat

theorem meTal_scope_stack_discipline_witness :
    (meTalmanager (MeTal_call (Val.base "deco") [] [])
        (fun s => { stack := s, raised := true }) []).stack = [] :=
  (meTal_scope_stack_discipline (Val.base "deco") [] [] []
    (fun s => { stack := s, raised := true }) (fun _ => rfl)).2.1

/-- C4: renaming is applied at most once per module object: a module that
already carries `__meTalized__` passes through the hook with its attribute
names (indeed the whole cached object) unchanged, and running the hook any
number of times leaves the cached module in the state one run produces. -/
theorem renaming_applied_at_most_once (stack stack' : List MeTalizer)
    (m : PyModule) :
    (meTalizing_import stack' (meTalizing_import stack m).1).1
        = (meTalizing_import stack m).1
      ∧ renamePass (renamePass m) = renamePass m
      ∧ (m.meTalized.isSome → (meTalizing_import stack m).1 = m) := by
  refine ⟨?_, renamePass_idem m, fun h => ?_⟩
  · rw [meTalizing_import_fst, meTalizing_import_fst, renamePass_idem]
  · rw [meTalizing_import_fst, renamePass_of_isSome m h]

theorem renaming_applied_at_most_once_witness :
    (meTalizing_import demoStack demoModule).1 = demoModule :=
  (renaming_applied_at_most_once demoStack [] demoModule).2.2 (by decide)

/-- C7: each stack element is the `(decorator, args, kwargs)` tuple built
by `MeTal.__call__`, and the decoration loop uses it as follows: with
non-empty `args` or `kwargs` the attribute `f` becomes
`decorator(*args, **kwargs)(f)`; with both empty it becomes
`decorator(f)`. -/
theorem meTalizer_tuple_application (d : Val) (args : List Val)
    (kwargs : List (String × Val)) (m : PyModule) (ms : List String)
    (n : String) (v : Val)
    (hms : m.meTalized = some ms) (hnd : ms.Nodup) (hmem : n ∈ ms)
    (hv : dictLookup m.attrs n = some v) :
    MeTal_call d args kwargs = { decorate := d, dargs := args, dkwargs := kwargs }
      ∧ dictLookup (meTalizing_import [MeTal_call d args kwargs] m).2.attrs n
          = some (if args ≠ [] ∨ kwargs ≠ [] then
                Val.app (Val.callStar d (argsVal args) (kwargsVal kwargs)) v
              else Val.app d v) := by
  refine ⟨rfl, ?_⟩
  rw [meTalizing_import_lookup [MeTal_call d args kwargs] m ms n v
    (by simp) hms hnd hmem hv]
  rfl

theorem meTalizer_tuple_application_witness :
    dictLookup (meTalizing_import [MeTal_call (Val.base "jit") [Val.base "arg1"] []]
        demoModule).2.attrs "hello"
      = some (Val.app (Val.callStar (Val.base "jit")
          (Val.argsCons (Val.base "arg1") Val.argsNil) Val.kwargsNil)
          (Val.base "hello_def")) := by
  rw [(meTalizer_tuple_application (Val.base "jit") [Val.base "arg1"] []
    demoModule ["hello"] "hello" (Val.base "hello_def")
    (by decide) (by decide) (by decide) (by decide)).2]
  rfl

/-- C9: decoration never mutates the cached module object: the cached
entry after any hook call is exactly the renamed module, the decorated
functions are bound only on the returned copy, an import with an empty
stack returns that original cached module, and every value bound in the
cached module is one of the module's original (unwrapped) values. -/
theorem import_returns_fresh_copy (stack : List MeTalizer) (m : PyModule)
    (w : Val) (hw : w ∈ (renamePass m).attrs.map Prod.snd) :
    (meTalizing_import stack m).1 = renamePass m
      ∧ (meTalizing_import [] m).2 = renamePass m
      ∧ w ∈ m.attrs.map Prod.snd := by
  refine ⟨meTalizing_import_fst stack m, meTalizing_import_empty_snd m, ?_⟩
  by_cases h : m.meTalized.isSome
  · rw [renamePass_of_isSome m h] at hw
    exact hw
  · have hattrs : (renamePass m).attrs
        = ((dirNames m).map fun n => (n, pyLower n)).foldl renameStep m.attrs := by
      simp [renamePass, h]
    rw [hattrs] at hw
    exact renameFold_vals_subset _ _ _ hw

theorem import_returns_fresh_copy_witness :
    (meTalizing_import demoStack freshModule).1 = renamePass freshModule
      ∧ Val.base "greet_def" ∈ freshModule.attrs.map Prod.snd :=
  ⟨(import_returns_fresh_copy demoStack freshModule (Val.base "greet_def")
      (by decide)).1,
   (import_returns_fresh_copy demoStack freshModule (Val.base "greet_def")
      (by decide)).2.2⟩

/-- C10: the top-level code of `meTal.py` imports `__builtin__`, a module
that exists only under Python 2; under Python 3 that import raises
`ImportError` and execution never reaches the statement that replaces
`builtins.__import__` — while under Python 2 the module loads and the hook
is installed. -/
theorem meTal_import_fails_on_python3 :
    runTopLevel py3Modules meTalTopLevel false
        = (false, some { kind := "ImportError" })
      ∧ runTopLevel py2Modules meTalTopLevel false = (true, none) :=
  ⟨rfl, rfl⟩

/-- C5 counterexample: on a module binding both `HellO` and `hello`, the
rename pass pops `HellO` and rebinds it at `hello`, overwriting the value
already bound there: the original `hello` definition does not survive. -/
theorem rename_collision_counterexample :
    dictLookup collisionModule.attrs "hello" = some (Val.base "lower_def")
      ∧ (renamePass collisionModule).attrs = [("hello", Val.base "cased_def")]
      ∧ dictLookup (renamePass collisionModule).attrs "hello"
          ≠ some (Val.base "lower_def")
      ∧ Val.base "lower_def" ∉ (renamePass collisionModule).attrs.map Prod.snd := by
  decide

/-- C5 (amended): when a module namespace contains a cased name and the
lowercase name it case-folds to, the pass renames the cased name onto the
lowercase name and thereby overwrites the attribute already bound there:
only the cased name's definition survives, under the lowercase name. -/
theorem rename_collision_overwrites (nm : String) (v1 v2 : Val) :
    renamePass { name := nm, attrs := [("HellO", v1), ("hello", v2)], meTalized := none }
      = { name := nm, attrs := [("hello", v1)], meTalized := some ["hello"] } := by
  rfl

/-- C6 counterexample: `world` is already lowercase, yet the rename pass
does not leave it untouched when a cased `WorlD` folds onto it — the
binding of `world` changes. -/
theorem lowercase_not_untouched_counterexample :
    dictLookup collisionModule2.attrs "world" = some (Val.base "lower_def2")
      ∧ pyLower "world" = "world"
      ∧ dictLookup (renamePass collisionModule2).attrs "world"
          ≠ some (Val.base "lower_def2") := by
  decide

/-- C6 (amended): on first import of a module none of whose distinct
attribute names case-fold to the same lowercase name, an attribute is
meTalized exactly when its name differs from its lowercased form: the
hook records in `__meTalized__` precisely the lowercase forms of the
names that differ from them, rebinds each such attribute under the
lowercase name while removing the cased name, and leaves attributes whose
names are already lowercase untouched.  (Without the no-collision proviso
the final clause fails; see the counterexample.) -/
theorem rename_pass_characterization (m : PyModule)
    (hnone : m.meTalized = none)
    (hKnd : (dictKeys m.attrs).Nodup)
    (hcol : ∀ a ∈ dictKeys m.attrs, ∀ b ∈ dictKeys m.attrs,
      a ≠ b → pyLower a ≠ pyLower b) :
    (∀ x, x ∈ (renamePass m).meTalized.getD []
        ↔ ∃ nn ∈ dictKeys m.attrs, nn ≠ pyLower nn ∧ pyLower nn = x)
      ∧ (∀ n v, dictLookup m.attrs n = some v → n = pyLower n →
          dictLookup (renamePass m).attrs n = some v)
      ∧ (∀ n v, dictLookup m.attrs n = some v → n ≠ pyLower n →
          dictLookup (renamePass m).attrs (pyLower n) = some v
            ∧ dictLookup (renamePass m).attrs n = none) := by
  have hns : ¬ m.meTalized.isSome := by rw [hnone]; simp
  have hperm := dirNames_perm m
  have hattrs : (renamePass m).attrs = (renamePairs m).foldl renameStep m.attrs := by
    simp [renamePass, renamePairs, hns]
  have hmzd : (renamePass m).meTalized
      = some (((renamePairs m).filter fun p => p.1 ≠ p.2).map Prod.snd) := by
    simp [renamePass, renamePairs, hns]
  have hP2 : ∀ p ∈ renamePairs m, p.2 = pyLower p.1 := by
    intro p hp
    obtain ⟨nn, _, rfl⟩ := List.mem_map.mp hp
    rfl
  have hPfst : (renamePairs m).map Prod.fst = dirNames m := by
    simp [renamePairs, Function.comp_def]
  have hPnd : ((renamePairs m).map Prod.fst).Nodup := by
    rw [hPfst]
    exact hperm.nodup_iff.mpr hKnd
  have hfstmem : ∀ p ∈ renamePairs m, p.1 ∈ dictKeys m.attrs := by
    intro p hp
    obtain ⟨nn, hnn, rfl⟩ := List.mem_map.mp hp
    exact hperm.mem_iff.mp hnn
  have hmemP : ∀ nn, nn ∈ dictKeys m.attrs → (nn, pyLower nn) ∈ renamePairs m :=
    fun nn hnn => List.mem_map.mpr ⟨nn, hperm.mem_iff.mpr hnn, rfl⟩
  have hcolP : ∀ p ∈ renamePairs m, ∀ q ∈ renamePairs m,
      p.1 ≠ q.1 → pyLower p.1 ≠ pyLower q.1 :=
    fun p hp q hq => hcol p.1 (hfstmem p hp) q.1 (hfstmem q hq)
  refine ⟨?_, ?_, ?_⟩
  · intro x
    rw [hmzd]
    constructor
    · intro hx
      obtain ⟨p, hpf, rfl⟩ := List.mem_map.mp hx
      have hp := List.mem_filter.mp hpf
      have hpne : p.1 ≠ p.2 := by simpa using hp.2
      refine ⟨p.1, hfstmem p hp.1, ?_, (hP2 p hp.1).symm⟩
      rw [← hP2 p hp.1]
      exact hpne
    · rintro ⟨nn, hnn, hne, rfl⟩
      exact List.mem_map.mpr ⟨(nn, pyLower nn),
        List.mem_filter.mpr ⟨hmemP nn hnn, by simpa using hne⟩, rfl⟩
  · intro n v hv hlow
    have hcx : ∀ p ∈ renamePairs m, p.1 ≠ n → pyLower p.1 ≠ n := by
      intro p hp hpn
      have h1 := hcol p.1 (hfstmem p hp) n (mem_dictKeys_of_lookup _ _ _ hv) hpn
      rw [← hlow] at h1
      exact h1
    rw [hattrs, renameFold_lookup_keep (renamePairs m) m.attrs n hP2 hlow.symm hcx]
    exact hv
  · intro n v hv hne
    rw [hattrs]
    exact renameFold_lookup_hit (renamePairs m) m.attrs n v hP2 hPnd hcolP hKnd
      (hmemP n (mem_dictKeys_of_lookup _ _ _ hv)) hne hv

theorem rename_pass_characterization_witness :
    dictLookup (renamePass freshModule).attrs "greet" = some (Val.base "greet_def")
      ∧ dictLookup (renamePass freshModule).attrs "GreeT" = none
      ∧ dictLookup (renamePass freshModule).attrs "__name__"
          = some (Val.base "fresh") := by
  have h := rename_pass_characterization freshModule (by decide) (by decide)
    (by decide)
  refine ⟨?_, ?_, ?_⟩
  · exact (h.2.2 "GreeT" (Val.base "greet_def") (by decide) (by decide)).1
  · exact (h.2.2 "GreeT" (Val.base "greet_def") (by decide) (by decide)).2
  · exact h.2.1 "__name__" (Val.base "fresh") (by decide) (by decide)

/-- C8: no error handling anywhere: the context manager pushes whatever
value it is given as a decorator (no validation — the pushed tuple is
exactly the arguments), an exception raised by the underlying builtin
importer passes through the hook unchanged, and an exception raised by a
decorator while wrapping a meTalized attribute aborts the hook with that
same exception — nothing is caught. -/
theorem no_error_handling_propagation
    (d : Val) (args : List Val) (kwargs : List (String × Val))
    (st stack : List MeTalizer)
    (call : MeTalizer → Val → Except PyErr Val)
    (err : PyErr) (m : PyModule) (ms : List String) (n : String) (v : Val)
    (hstack : stack ≠ [])
    (hms : m.meTalized = some (n :: ms))
    (hv : dictLookup m.attrs n = some v)
    (hraise : decorateDefnE call stack v = Except.error err) :
    meTalEnter st (MeTal_call d args kwargs)
        = st ++ [{ decorate := d, dargs := args, dkwargs := kwargs }]
      ∧ (∀ e : PyErr, meTalizing_importE call stack (Except.error e)
          = Except.error e)
      ∧ meTalizing_importE call stack (Except.ok m) = Except.error err := by
  refine ⟨rfl, fun e => rfl, ?_⟩
  have hsome : m.meTalized.isSome := by rw [hms]; rfl
  have hstep : decorateStepE call stack ⟨m.name, m.attrs, some (n :: ms)⟩ n
      = Except.error err := by
    simp [decorateStepE, hv, hraise]
  have h1 : meTalizing_importE call stack (Except.ok m)
      = if stack = [] then pure (renamePass m)
        else ((renamePass m).meTalized.getD []).foldlM (decorateStepE call stack)
          ⟨(renamePass m).name, (renamePass m).attrs, (renamePass m).meTalized⟩ := rfl
  rw [renamePass_of_isSome m hsome, if_neg hstack, hms] at h1
  simp only [Option.getD_some] at h1
  rw [h1, List.foldlM_cons, hstep]
  rfl

theorem no_error_handling_propagation_witness :
    meTalizing_importE (fun _ _ => Except.error { kind := "TypeError" })
        [MeTal_call (Val.base "not_a_callable") [] []]
        (Except.ok demoModule)
      = Except.error { kind := "TypeError" } :=
  (no_error_handling_propagation (Val.base "not_a_callable") [] [] []
    [MeTal_call (Val.base "not_a_callable") [] []]
    (fun _ _ => Except.error { kind := "TypeError" })
    { kind := "TypeError" } demoModule [] "hello" (Val.base "hello_def")
    (by decide) (by decide) (by decide) rfl).2.2
